import Mathlib

/-!
Shallow embedding of the SimpleTune guitar-tuner core (app.js).

JavaScript numbers are modelled as real numbers; `Math.floor` is `Int.floor`,
`Math.round` is Mathlib's `round` (both round half-integers toward positive
infinity, exactly as `Math.round` does), and the JavaScript `%` operator on
integers is `Int.tmod` (remainder with the sign of the dividend).  Out-of-range
buffer reads return 0; in the scanned lag ranges every read is in range, so the
convention is never exercised on a reachable index.
-/

namespace SimpleTune

/-- Standard guitar tuning target, one entry of `GUITAR_STRINGS` in app.js. -/
structure GuitarString where
  note : String
  octave : ℤ
  freq : ℝ
  label : String

/-- The `GUITAR_STRINGS` table from app.js. -/
noncomputable def GUITAR_STRINGS : List GuitarString :=
  [⟨"E", 2, 82.41, "E2"⟩,
   ⟨"A", 2, 110.00, "A"⟩,
   ⟨"D", 3, 146.83, "D"⟩,
   ⟨"G", 3, 196.00, "G"⟩,
   ⟨"B", 3, 246.94, "B"⟩,
   ⟨"E", 4, 329.63, "E4"⟩]

/-- Indexing into the six-entry `GUITAR_STRINGS` table. -/
noncomputable def stringAt (i : Fin 6) : GuitarString :=
  GUITAR_STRINGS.get (Fin.cast (by rfl) i)

/-- The `NOTE_NAMES` chromatic table from app.js, index 0 = C. -/
def NOTE_NAMES : List String :=
  ["C", "C#", "D", "D#", "E", "F"] ++ ["F#", "G", "G#", "A", "A#", "B"]

/-- Fallback note label for an index outside the chromatic table (unreachable). -/
def UNKNOWN_NOTE : String := "?"

/-- The `A4_FREQ` constant (440 Hz reference). -/
def A4_FREQ : ℝ := 440

/-- The `A4_MIDI` constant (MIDI 69 = A4). -/
def A4_MIDI : ℝ := 69

/-- The `IN_TUNE_CENTS` constant: within plus or minus 5 cents is in tune. -/
def IN_TUNE_CENTS : ℤ := 5

/-- The `MIN_VOLUME` constant: minimum RMS volume to detect pitch. -/
def MIN_VOLUME : ℝ := 0.01

/-- The `EMA_ALPHA` constant: exponential moving average smoothing factor. -/
def EMA_ALPHA : ℝ := 0.2

noncomputable section

/-- Reading `buffer[i]`; out-of-range reads yield 0 (never reached by the scan). -/
def bufAt (b : List ℝ) (i : ℤ) : ℝ :=
  if 0 ≤ i ∧ i < (b.length : ℤ) then b.getD i.toNat 0 else 0

/-- `MAX_SAMPLES = Math.floor(SIZE / 2)` in `autoCorrelate`. -/
def maxSamples (b : List ℝ) : ℕ := b.length / 2

/-- The dot product `sum` accumulated by the inner loop of `autoCorrelate`
for a given lag `offset`: the sum of `buffer[i] * buffer[i + offset]` over
`i` in `[0, MAX_SAMPLES - offset)`. -/
def corrSum (b : List ℝ) (offset : ℤ) : ℝ :=
  ∑ i ∈ Finset.range ((maxSamples b : ℤ) - offset).toNat,
    bufAt b (i : ℤ) * bufAt b ((i : ℤ) + offset)

/-- The energy `sumSq1` accumulated by the inner loop of `autoCorrelate`. -/
def corrE1 (b : List ℝ) (offset : ℤ) : ℝ :=
  ∑ i ∈ Finset.range ((maxSamples b : ℤ) - offset).toNat,
    bufAt b (i : ℤ) * bufAt b (i : ℤ)

/-- The energy `sumSq2` accumulated by the inner loop of `autoCorrelate`. -/
def corrE2 (b : List ℝ) (offset : ℤ) : ℝ :=
  ∑ i ∈ Finset.range ((maxSamples b : ℤ) - offset).toNat,
    bufAt b ((i : ℤ) + offset) * bufAt b ((i : ℤ) + offset)

/-- The normalization denominator `norm = Math.sqrt(sumSq1 * sumSq2)`. -/
def corrNorm (b : List ℝ) (offset : ℤ) : ℝ :=
  Real.sqrt (corrE1 b offset * corrE2 b offset)

/-- The normalized correlation coefficient `sum / norm` at a lag
(only read by the scan when `corrNorm` is positive). -/
def corrAt (b : List ℝ) (offset : ℤ) : ℝ :=
  corrSum b offset / corrNorm b offset

/-- One iteration of the `autoCorrelate` scan loop: skip the lag when the
denominator is not positive, otherwise update `(bestOffset, bestCorrelation)`
when the correlation strictly exceeds the best so far. -/
def scanStep (b : List ℝ) (st : ℤ × ℝ) (offset : ℤ) : ℤ × ℝ :=
  if 0 < corrNorm b offset then
    if st.2 < corrAt b offset then (offset, corrAt b offset) else st
  else st

/-- `minPeriod = Math.floor(sampleRate / 400)` in `autoCorrelate`. -/
def minPeriodOf (R : ℝ) : ℤ := ⌊R / 400⌋

/-- `maxPeriod = Math.floor(sampleRate / 80)` in `autoCorrelate`. -/
def maxPeriodOf (R : ℝ) : ℤ := ⌊R / 80⌋

/-- The exclusive upper bound `Math.min(MAX_SAMPLES, maxPeriod)` of the scan. -/
def scanBound (b : List ℝ) (R : ℝ) : ℤ :=
  min ((maxSamples b : ℤ)) (maxPeriodOf R)

/-- The lags visited by the scan loop, in loop order:
`minPeriod, minPeriod + 1, ..., Math.min(MAX_SAMPLES, maxPeriod) - 1`. -/
def offsetList (b : List ℝ) (R : ℝ) : List ℤ :=
  (List.range (scanBound b R - minPeriodOf R).toNat).map
    (fun i : ℕ => minPeriodOf R + (i : ℤ))

/-- The `(bestOffset, bestCorrelation)` pair after the scan loop, starting
from `(-1, -1)`. -/
def scanResult (b : List ℝ) (R : ℝ) : ℤ × ℝ :=
  (offsetList b R).foldl (scanStep b) (-1, -1)

/-- The scan state after the first `n` candidate lags starting at `minP`
(a prefix of the scan loop, used to reason about the loop by induction). -/
def scanUpTo (b : List ℝ) (minP : ℤ) (n : ℕ) : ℤ × ℝ :=
  ((List.range n).map (fun i : ℕ => minP + (i : ℤ))).foldl (scanStep b) (-1, -1)

/-- The `autoCorrelate` function from app.js: run the scan, then return
`sampleRate / bestOffset` when `bestCorrelation > 0.2 && bestOffset > 0`,
and the sentinel `-1` otherwise. -/
def autoCorrelate (b : List ℝ) (R : ℝ) : ℝ :=
  let best := scanResult b R
  if 0.2 < best.2 ∧ 0 < best.1 then R / (best.1 : ℝ) else -1

/-- The RMS volume computed at the top of `detectPitch`:
`Math.sqrt((Σ buffer[i]^2) / bufferLength)`. -/
def rmsOf (b : List ℝ) : ℝ :=
  Real.sqrt ((b.map (fun x => x * x)).sum / (b.length : ℝ))

/-- The smoothing update inlined in `detectPitch`: the first valid reading
after a reset is taken verbatim, later readings are blended with
`EMA_ALPHA * new + (1 - EMA_ALPHA) * previous`. -/
def smootherUpdate (s : Option ℝ) (raw : ℝ) : ℝ :=
  match s with
  | none => raw
  | some prev => EMA_ALPHA * raw + (1 - EMA_ALPHA) * prev

/-- Repeatedly feeding the smoother the same raw frequency `f`, starting from
an initialized smoothed value `s`. -/
def smootherIterate (f : ℝ) : ℕ → ℝ → ℝ
  | 0, s => s
  | n + 1, s => smootherUpdate (some (smootherIterate f n s)) f

/-- `midiNote = 12 * Math.log2(frequency / A4_FREQ) + A4_MIDI` in
`getNoteFromFrequency`. -/
def midiOf (frequency : ℝ) : ℝ :=
  12 * Real.logb 2 (frequency / A4_FREQ) + A4_MIDI

/-- The record returned by `getNoteFromFrequency`. -/
structure NoteInfo where
  note : String
  octave : ℤ
  midi : ℤ
  cents : ℤ
  frequency : ℝ

/-- The `getNoteFromFrequency` function from app.js.  JavaScript `%` is
`Int.tmod`, `Math.floor(roundedMidi / 12)` is the floor of the real
quotient. -/
def getNoteFromFrequency (frequency : ℝ) : NoteInfo :=
  let midiNote := midiOf frequency
  let roundedMidi := round midiNote
  let cents := round ((midiNote - (roundedMidi : ℝ)) * 100)
  let noteIndex := ((roundedMidi.tmod 12) + 12).tmod 12
  let octave := ⌊(roundedMidi : ℝ) / 12⌋ - 1
  { note := NOTE_NAMES.getD noteIndex.toNat UNKNOWN_NOTE
    octave := octave
    midi := roundedMidi
    cents := cents
    frequency := frequency }

/-- The locked-mode deviation computed in `updateDisplay`:
`Math.round(1200 * Math.log2(frequency / lockedString.freq))`. -/
def lockedCents (frequency targetFreq : ℝ) : ℤ :=
  round (1200 * Real.logb 2 (frequency / targetFreq))

/-- The cents value shown by `updateDisplay`: locked-mode deviation against the
locked string when a lock is set, the note-relative cents of
`getNoteFromFrequency` otherwise.  Unclamped. -/
def displayCents (frequency : ℝ) (lock : Option (Fin 6)) : ℤ :=
  match lock with
  | some idx => lockedCents frequency (stringAt idx).freq
  | none => (getNoteFromFrequency frequency).cents

/-- The state of the DOM output: which texts are shown and which CSS classes
are set.  `none` in a text field means the cleared placeholder text. -/
structure Display where
  note : Option String
  noteInTune : Bool
  octave : Option ℤ
  hz : Option ℝ
  cents : ℤ
  activeSegments : Finset ℤ
  stringActive : Option (Fin 6)
  stringInTune : Option (Fin 6)

/-- The display state produced by `resetDisplay` in app.js: placeholder texts,
cents text `0`, no active meter segments, no active or in-tune string buttons.
`resetDisplay` deliberately does not touch `lockedStringIndex`. -/
def resetDisplayState : Display :=
  { note := none, noteInTune := false, octave := none, hz := none, cents := 0,
    activeSegments := ∅, stringActive := none, stringInTune := none }

/-- The display mutation performed by the low-volume branch of `detectPitch`:
remove the in-tune class from the note, deactivate every meter segment, and
clear the active and in-tune classes of the string buttons.  The texts are
left as they are. -/
def clearSignalIndicators (d : Display) : Display :=
  { d with noteInTune := false, activeSegments := ∅,
           stringActive := none, stringInTune := none }

/-- The `updateStringIndicators` function from app.js, returning the button
holding the `active` class and the button holding the `in-tune` class.  When
unlocked it scans the six strings for the one nearest in cents, keeping the
first strict improvement (the source initializes `minDistance` to `Infinity`,
modelled by the `isNone` test on the first iteration). -/
def updateStringIndicators (frequency : ℝ) (isInTune : Bool)
    (lock : Option (Fin 6)) : Option (Fin 6) × Option (Fin 6) :=
  match lock with
  | some idx => if isInTune then (none, some idx) else (some idx, none)
  | none =>
    let scan := (List.finRange 6).foldl
      (fun st i =>
        let d := |1200 * Real.logb 2 (frequency / (stringAt i).freq)|
        if st.1.isNone ∨ d < st.2 then (some i, d) else st)
      ((none : Option (Fin 6)), 0)
    match scan.1 with
    | none => (none, none)
    | some ci =>
      if scan.2 < 100 then
        if isInTune ∧ scan.2 < (IN_TUNE_CENTS : ℝ) then (none, some ci)
        else (some ci, none)
      else (none, none)

/-- The `updateDisplay` function from app.js: derive cents and the displayed
note identity from the lock state, set the texts, light the meter segments
(from the cents value clamped to [-50, 50]), set the in-tune class from the
unclamped cents, and update the string indicators. -/
def updateDisplay (frequency : ℝ) (lock : Option (Fin 6)) : Display :=
  let cents := displayCents frequency lock
  let displayNote :=
    match lock with
    | some idx => (stringAt idx).note
    | none => (getNoteFromFrequency frequency).note
  let displayOctave :=
    match lock with
    | some idx => (stringAt idx).octave
    | none => (getNoteFromFrequency frequency).octave
  let clampedCents := max (-50) (min 50 cents)
  let numSegments : ℤ := 25
  let segmentIndex :=
    round (((clampedCents : ℝ) + 50) / (100 / ((numSegments : ℝ) - 1)))
  let clampedSegmentIndex := max 0 (min (numSegments - 1) segmentIndex)
  let isInTune : Bool := decide (|cents| ≤ IN_TUNE_CENTS)
  let centerIndex := numSegments / 2
  let active : Finset ℤ :=
    if isInTune then {centerIndex}
    else if clampedSegmentIndex < centerIndex then
      Finset.Icc clampedSegmentIndex (centerIndex - 1)
    else Finset.Icc (centerIndex + 1) clampedSegmentIndex
  let strings := updateStringIndicators frequency isInTune lock
  { note := some displayNote
    noteInTune := isInTune
    octave := some displayOctave
    hz := some frequency
    cents := cents
    activeSegments := active
    stringActive := strings.1
    stringInTune := strings.2 }

/-- The mutable session fields of app.js that the tick loop reads or writes. -/
structure SessionState where
  isListening : Bool
  lockedStringIndex : Option (Fin 6)
  smoothedFrequency : Option ℝ
  display : Display

/-- What a single `detectPitch` tick did, as observable at the UI boundary:
`inactive` for the early return when not listening, `noSignal` for the
low-volume branch, `skipped` when the volume was adequate but the estimator
returned the -1 sentinel (the source updates nothing in that case), and
`tuning s` when a pitch was found and the display was updated from the
smoothed frequency `s`. -/
inductive TickResult where
  | inactive
  | noSignal
  | skipped
  | tuning (smoothed : ℝ)

/-- One tick of `detectPitch` from app.js, parametrized by the pitch
estimator that the signal-present branch calls. -/
def detectPitchWith (est : List ℝ → ℝ → ℝ) (buffer : List ℝ) (R : ℝ)
    (s : SessionState) : SessionState × TickResult :=
  if s.isListening then
    let rms := rmsOf buffer
    if MIN_VOLUME < rms then
      let frequency := est buffer R
      if frequency ≠ -1 then
        let newSmoothed := smootherUpdate s.smoothedFrequency frequency
        ({ s with smoothedFrequency := some newSmoothed,
                  display := updateDisplay newSmoothed s.lockedStringIndex },
         TickResult.tuning newSmoothed)
      else (s, TickResult.skipped)
    else
      ({ s with smoothedFrequency := none,
                display := clearSignalIndicators s.display },
       TickResult.noSignal)
  else (s, TickResult.inactive)

/-- One tick of `detectPitch` with the estimator of app.js. -/
def detectPitch (buffer : List ℝ) (R : ℝ) (s : SessionState) :
    SessionState × TickResult :=
  detectPitchWith autoCorrelate buffer R s

/-- The session-state effect of `stopListening` in app.js: stop listening,
reset the smoothed frequency, reset the display.  The locked string index is
not touched (the source comments that the lock is kept while not listening). -/
def stopListening (s : SessionState) : SessionState :=
  { s with isListening := false, smoothedFrequency := none,
           display := resetDisplayState }

/-- The session-state effect of the success path of `startListening` in
app.js: the audio plumbing is external; the session state only gains
`isListening = true`. -/
def startListening (s : SessionState) : SessionState :=
  { s with isListening := true }

end

/-- C4: the smoother takes the first valid raw frequency after a reset
verbatim, updates `smoothed := 0.2 * raw + 0.8 * smoothed` on every later
valid raw frequency, and under a constant raw frequency `f` the distance of
the smoothed value from `f` shrinks by the factor 0.8 on every tick
(geometric convergence to `f`). -/
theorem smoother_first_verbatim_then_geometric :
    (∀ raw : ℝ, smootherUpdate none raw = raw) ∧
    (∀ prev raw : ℝ, smootherUpdate (some prev) raw = 0.2 * raw + 0.8 * prev) ∧
    (∀ (f s : ℝ) (n : ℕ),
      |smootherIterate f n s - f| = 0.8 ^ n * |s - f|) := by
  refine ⟨fun raw => rfl, fun prev raw => by simp only [smootherUpdate, EMA_ALPHA]; norm_num, ?_⟩
  intro f s n
  induction n with
  | zero => simp [smootherIterate]
  | succ n ih =>
    have hstep : smootherIterate f (n + 1) s - f
        = 0.8 * (smootherIterate f n s - f) := by
      simp only [smootherIterate, smootherUpdate, EMA_ALPHA]
      ring
    rw [hstep, abs_mul, ih, abs_of_pos (by norm_num : (0:ℝ) < 0.8)]
    ring

/-- The full scan is the scan over the whole lag range. -/
theorem scanResult_def (b : List ℝ) (R : ℝ) :
    scanUpTo b (minPeriodOf R) ((scanBound b R - minPeriodOf R).toNat)
      = scanResult b R := rfl

/-- Peeling the last lag off a scan. -/
theorem scanUpTo_succ (b : List ℝ) (minP : ℤ) (n : ℕ) :
    scanUpTo b minP (n + 1)
      = scanStep b (scanUpTo b minP n) (minP + (n : ℤ)) := by
  rw [scanUpTo, scanUpTo, List.range_succ, List.map_append, List.foldl_append]
  rfl

/-- Invariant of the `autoCorrelate` scan loop: after `n` lags the state is
either still the initial `(-1, -1)` and every valid lag so far had
correlation at most -1, or the state records the first lag attaining the
running maximum: a valid lag whose correlation equals `bestCorrelation`,
with every valid lag so far at most `bestCorrelation` and every valid lag
strictly before it strictly below `bestCorrelation`. -/
theorem scanUpTo_spec (b : List ℝ) (minP : ℤ) :
    ∀ n : ℕ,
    (scanUpTo b minP n = (-1, -1) ∧
      ∀ i : ℕ, i < n → 0 < corrNorm b (minP + (i:ℤ)) →
        corrAt b (minP + (i:ℤ)) ≤ -1) ∨
    (∃ i0 : ℕ, i0 < n ∧ (scanUpTo b minP n).1 = minP + (i0:ℤ) ∧
      0 < corrNorm b (minP + (i0:ℤ)) ∧
      corrAt b (minP + (i0:ℤ)) = (scanUpTo b minP n).2 ∧
      (∀ i : ℕ, i < n → 0 < corrNorm b (minP + (i:ℤ)) →
        corrAt b (minP + (i:ℤ)) ≤ (scanUpTo b minP n).2) ∧
      (∀ i : ℕ, i < i0 → 0 < corrNorm b (minP + (i:ℤ)) →
        corrAt b (minP + (i:ℤ)) < (scanUpTo b minP n).2)) := by
  intro n
  induction n with
  | zero => exact Or.inl ⟨rfl, fun i hi => absurd hi (Nat.not_lt_zero i)⟩
  | succ n ih =>
    rw [scanUpTo_succ]
    by_cases hv : 0 < corrNorm b (minP + (n:ℤ))
    · by_cases hc : (scanUpTo b minP n).2 < corrAt b (minP + (n:ℤ))
      · have hstep : scanStep b (scanUpTo b minP n) (minP + (n:ℤ))
            = (minP + (n:ℤ), corrAt b (minP + (n:ℤ))) := by
          rw [scanStep, if_pos hv, if_pos hc]
        rw [hstep]
        refine Or.inr ⟨n, Nat.lt_succ_self n, rfl, hv, rfl, ?_, ?_⟩
        · intro i hi hvi
          show corrAt b (minP + (i:ℤ)) ≤ corrAt b (minP + (n:ℤ))
          rcases Nat.lt_succ_iff_lt_or_eq.mp hi with hlt | heq
          · rcases ih with ⟨hA, hB⟩ | ⟨i0, _, _, _, _, hle, _⟩
            · have h1 := hB i hlt hvi
              have h2 : (scanUpTo b minP n).2 = -1 := by rw [hA]
              rw [h2] at hc
              linarith
            · have h1 := hle i hlt hvi
              linarith
          · subst heq
            exact le_refl _
        · intro i hi hvi
          show corrAt b (minP + (i:ℤ)) < corrAt b (minP + (n:ℤ))
          rcases ih with ⟨hA, hB⟩ | ⟨i0, _, _, _, _, hle, _⟩
          · have h1 := hB i hi hvi
            have h2 : (scanUpTo b minP n).2 = -1 := by rw [hA]
            rw [h2] at hc
            linarith
          · have h1 := hle i hi hvi
            linarith
      · have hstep : scanStep b (scanUpTo b minP n) (minP + (n:ℤ))
            = scanUpTo b minP n := by
          rw [scanStep, if_pos hv, if_neg hc]
        rw [hstep]
        have hcn : corrAt b (minP + (n:ℤ)) ≤ (scanUpTo b minP n).2 :=
          le_of_not_lt hc
        rcases ih with ⟨hA, hB⟩ | ⟨i0, hi0, h1, hv0, heq0, hle, hstrict⟩
        · left
          refine ⟨hA, ?_⟩
          intro i hi hvi
          rcases Nat.lt_succ_iff_lt_or_eq.mp hi with hlt | heq
          · exact hB i hlt hvi
          · subst heq
            refine le_trans hcn ?_
            rw [hA]
        · right
          refine ⟨i0, Nat.lt_succ_of_lt hi0, h1, hv0, heq0, ?_, hstrict⟩
          intro i hi hvi
          rcases Nat.lt_succ_iff_lt_or_eq.mp hi with hlt | heq
          · exact hle i hlt hvi
          · subst heq
            exact hcn
    · have hstep : scanStep b (scanUpTo b minP n) (minP + (n:ℤ))
          = scanUpTo b minP n := by
        rw [scanStep, if_neg hv]
      rw [hstep]
      rcases ih with ⟨hA, hB⟩ | ⟨i0, hi0, h1, hv0, heq0, hle, hstrict⟩
      · left
        refine ⟨hA, ?_⟩
        intro i hi hvi
        rcases Nat.lt_succ_iff_lt_or_eq.mp hi with hlt | heq
        · exact hB i hlt hvi
        · subst heq
          exact absurd hvi hv
      · right
        refine ⟨i0, Nat.lt_succ_of_lt hi0, h1, hv0, heq0, ?_, hstrict⟩
        intro i hi hvi
        rcases Nat.lt_succ_iff_lt_or_eq.mp hi with hlt | heq
        · exact hle i hlt hvi
        · subst heq
          exact absurd hvi hv

/-- Membership in the scanned lag range. -/
theorem mem_offsetList (b : List ℝ) (R : ℝ) (k : ℤ) :
    k ∈ offsetList b R ↔ minPeriodOf R ≤ k ∧ k < scanBound b R := by
  rw [offsetList, List.mem_map]
  constructor
  · rintro ⟨i, hi, rfl⟩
    rw [List.mem_range] at hi
    omega
  · rintro ⟨h1, h2⟩
    refine ⟨(k - minPeriodOf R).toNat, ?_, by omega⟩
    rw [List.mem_range]
    omega

/-- An empty lag range means an empty scan list. -/
theorem offsetList_eq_nil (b : List ℝ) (R : ℝ)
    (h : scanBound b R ≤ minPeriodOf R) : offsetList b R = [] := by
  rw [offsetList]
  have : (scanBound b R - minPeriodOf R).toNat = 0 := by omega
  rw [this]
  rfl

/-- A nonpositive sampling rate yields an empty lag range: the floor of
`R / 80` is then at most the floor of `R / 400`. -/
theorem scanBound_le_of_nonpos (b : List ℝ) (R : ℝ) (h : R ≤ 0) :
    scanBound b R ≤ minPeriodOf R := by
  have hdiv : R / 80 ≤ R / 400 := by
    rw [div_le_div_iff₀ (by norm_num) (by norm_num)]
    linarith
  calc scanBound b R ≤ maxPeriodOf R := min_le_right _ _
    _ ≤ minPeriodOf R := Int.floor_le_floor hdiv

/-- On the empty scan list the state keeps its initial value. -/
theorem scanResult_of_nil (b : List ℝ) (R : ℝ)
    (h : offsetList b R = []) : scanResult b R = (-1, -1) := by
  rw [scanResult, h]
  rfl

/-- Every read from an all-zero buffer yields zero. -/
theorem bufAt_of_all_zero (b : List ℝ) (hz : ∀ x ∈ b, x = 0) (i : ℤ) :
    bufAt b i = 0 := by
  rw [bufAt]
  split
  · rcases Nat.lt_or_ge i.toNat b.length with h | h
    · rw [List.getD_eq_getElem _ _ h]
      exact hz _ (List.getElem_mem h)
    · exact List.getD_eq_default _ _ h
  · rfl

/-- On an all-zero buffer every lag is skipped, so the scan state never moves. -/
theorem scan_fixed_of_all_zero (b : List ℝ) (hz : ∀ x ∈ b, x = 0) :
    ∀ (L : List ℤ) (st : ℤ × ℝ), L.foldl (scanStep b) st = st := by
  have hnorm : ∀ k : ℤ, corrNorm b k = 0 := by
    intro k
    have h1 : corrE1 b k = 0 := by
      rw [corrE1]
      refine Finset.sum_eq_zero ?_
      intro i hi
      rw [bufAt_of_all_zero b hz]
      ring
    rw [corrNorm, h1, zero_mul, Real.sqrt_zero]
  have hstep : ∀ (st : ℤ × ℝ) (k : ℤ), scanStep b st k = st := by
    intro st k
    rw [scanStep, if_neg]
    rw [hnorm k]
    exact lt_irrefl 0
  intro L
  induction L with
  | nil => intro st; rfl
  | cons k L ihL =>
    intro st
    rw [List.foldl_cons, hstep st k]
    exact ihL st

/-- C8: on a zero-length window, and on any all-zero window, the pitch
estimator reports the -1 sentinel: every lag whose normalization denominator
is zero is skipped, the scan state never leaves `(-1, -1)`, and the final
guard falls through to the not-found return. -/
theorem autoCorrelate_silence_not_found :
    (∀ R : ℝ, autoCorrelate [] R = -1) ∧
    (∀ (b : List ℝ) (R : ℝ), (∀ x ∈ b, x = 0) → autoCorrelate b R = -1) := by
  constructor
  · intro R
    have hempty : offsetList [] R = [] := by
      apply offsetList_eq_nil
      rcases le_or_lt R 0 with hR | hR
      · exact scanBound_le_of_nonpos [] R hR
      · have h1 : scanBound [] R ≤ 0 := by
          calc scanBound [] R ≤ ((maxSamples [] : ℕ) : ℤ) := min_le_left _ _
            _ = 0 := rfl
        have h2 : (0:ℤ) ≤ minPeriodOf R :=
          Int.floor_nonneg.mpr (by positivity)
        omega
    have hres : scanResult [] R = (-1, -1) := scanResult_of_nil _ _ hempty
    show (if 0.2 < (scanResult [] R).2 ∧ 0 < (scanResult [] R).1
        then R / ((scanResult [] R).1 : ℝ) else -1) = -1
    rw [hres, if_neg]
    rintro ⟨h, -⟩
    norm_num at h
  · intro b R hz
    have hres : scanResult b R = (-1, -1) :=
      scan_fixed_of_all_zero b hz (offsetList b R) (-1, -1)
    show (if 0.2 < (scanResult b R).2 ∧ 0 < (scanResult b R).1
        then R / ((scanResult b R).1 : ℝ) else -1) = -1
    rw [hres, if_neg]
    rintro ⟨h, -⟩
    norm_num at h

/-- Witness for C8 on the all-zero window `[0, 0]` at 44100 Hz. -/
theorem autoCorrelate_silence_not_found_witness :
    autoCorrelate [0, 0] 44100 = -1 := by
  refine autoCorrelate_silence_not_found.2 [0, 0] 44100 ?_
  intro x hx
  rcases List.mem_cons.mp hx with h | h
  · exact h
  · simpa using h

/-- C10: `autoCorrelate` is total and guarded: on every buffer and sampling
rate it returns either the -1 sentinel or a positive frequency, and in the
positive case the scan's best lag is positive and its best correlation
exceeds 0.2 (so the division `sampleRate / bestOffset` only happens behind
those guards). -/
theorem autoCorrelate_total (b : List ℝ) (R : ℝ) :
    autoCorrelate b R = -1 ∨
    (0 < autoCorrelate b R ∧ 0 < (scanResult b R).1 ∧
      0.2 < (scanResult b R).2) := by
  by_cases h : 0.2 < (scanResult b R).2 ∧ 0 < (scanResult b R).1
  · right
    have hres : autoCorrelate b R = R / ((scanResult b R).1 : ℝ) := by
      show (if 0.2 < (scanResult b R).2 ∧ 0 < (scanResult b R).1
          then R / ((scanResult b R).1 : ℝ) else -1) = _
      rw [if_pos h]
    have hne : offsetList b R ≠ [] := by
      intro hnil
      have hinit := scanResult_of_nil b R hnil
      rw [hinit] at h
      norm_num at h
    have hR : 0 < R := by
      by_contra hR
      push_neg at hR
      exact hne (offsetList_eq_nil b R (scanBound_le_of_nonpos b R hR))
    refine ⟨?_, h.2, h.1⟩
    rw [hres]
    exact div_pos hR (by exact_mod_cast h.2)
  · left
    show (if 0.2 < (scanResult b R).2 ∧ 0 < (scanResult b R).1
        then R / ((scanResult b R).1 : ℝ) else -1) = -1
    rw [if_neg h]

/-- C2: the scan of `autoCorrelate` visits exactly the lags from
`floor(sampleRate / 400)` up to (exclusively) the minimum of
`floor(N / 2)` and `floor(sampleRate / 80)`; the final best correlation
dominates the correlation of every valid lag; whenever some valid lag has
correlation above the initial -1, the best lag is a valid scanned lag
attaining the best correlation and every valid lag strictly before it lies
strictly below it (strict greater-than comparison: the first maximum wins
ties); and the function returns `sampleRate / bestOffset` when the best
correlation exceeds 0.2 and the best lag is positive, and -1 otherwise. -/
theorem autoCorrelate_argmax (b : List ℝ) (R : ℝ) :
    (minPeriodOf R = ⌊R / 400⌋ ∧
      scanBound b R = min ((b.length / 2 : ℕ) : ℤ) ⌊R / 80⌋) ∧
    (∀ k : ℤ, k ∈ offsetList b R ↔
      minPeriodOf R ≤ k ∧ k < scanBound b R) ∧
    (∀ k ∈ offsetList b R, 0 < corrNorm b k →
      corrAt b k ≤ (scanResult b R).2) ∧
    ((∃ k ∈ offsetList b R, 0 < corrNorm b k ∧ -1 < corrAt b k) →
      (scanResult b R).1 ∈ offsetList b R ∧
      0 < corrNorm b (scanResult b R).1 ∧
      corrAt b (scanResult b R).1 = (scanResult b R).2 ∧
      (∀ k ∈ offsetList b R, k < (scanResult b R).1 → 0 < corrNorm b k →
        corrAt b k < (scanResult b R).2)) ∧
    ((0.2 < (scanResult b R).2 ∧ 0 < (scanResult b R).1) →
      autoCorrelate b R = R / ((scanResult b R).1 : ℝ)) ∧
    (¬(0.2 < (scanResult b R).2 ∧ 0 < (scanResult b R).1) →
      autoCorrelate b R = -1) := by
  have hspec := scanUpTo_spec b (minPeriodOf R)
    ((scanBound b R - minPeriodOf R).toNat)
  rw [scanResult_def] at hspec
  refine ⟨⟨rfl, rfl⟩, mem_offsetList b R, ?_, ?_, ?_, ?_⟩
  · intro k hk hvk
    obtain ⟨h1, h2⟩ := (mem_offsetList b R k).mp hk
    have hik : minPeriodOf R + (((k - minPeriodOf R).toNat : ℕ) : ℤ) = k := by
      omega
    have hilt : (k - minPeriodOf R).toNat
        < (scanBound b R - minPeriodOf R).toNat := by
      omega
    rcases hspec with ⟨hA, hB⟩ | ⟨i0, _, _, _, _, hle, _⟩
    · have := hB _ hilt (by rw [hik]; exact hvk)
      rw [hik] at this
      have h2A : (scanResult b R).2 = -1 := by rw [hA]
      rw [h2A]
      exact this
    · have := hle _ hilt (by rw [hik]; exact hvk)
      rw [hik] at this
      exact this
  · rintro ⟨k, hk, hvk, hgt⟩
    obtain ⟨h1, h2⟩ := (mem_offsetList b R k).mp hk
    have hik : minPeriodOf R + (((k - minPeriodOf R).toNat : ℕ) : ℤ) = k := by
      omega
    have hilt : (k - minPeriodOf R).toNat
        < (scanBound b R - minPeriodOf R).toNat := by
      omega
    rcases hspec with ⟨hA, hB⟩ | ⟨i0, hi0, hfst, hv0, heq0, hle, hstrict⟩
    · exfalso
      have := hB _ hilt (by rw [hik]; exact hvk)
      rw [hik] at this
      linarith
    · refine ⟨?_, by rw [hfst]; exact hv0, by rw [hfst]; exact heq0, ?_⟩
      · rw [hfst, mem_offsetList]
        omega
      · intro j hj hjlt hvj
        obtain ⟨hj1, hj2⟩ := (mem_offsetList b R j).mp hj
        have hjk : minPeriodOf R + (((j - minPeriodOf R).toNat : ℕ) : ℤ) = j := by
          omega
        have hji0 : (j - minPeriodOf R).toNat < i0 := by
          rw [hfst] at hjlt
          omega
        have := hstrict _ hji0 (by rw [hjk]; exact hvj)
        rw [hjk] at this
        exact this
  · intro h
    show (if 0.2 < (scanResult b R).2 ∧ 0 < (scanResult b R).1
        then R / ((scanResult b R).1 : ℝ) else -1) = _
    rw [if_pos h]
  · intro h
    show (if 0.2 < (scanResult b R).2 ∧ 0 < (scanResult b R).1
        then R / ((scanResult b R).1 : ℝ) else -1) = -1
    rw [if_neg h]

/-- Witness for C2: on the window `[1, 1, 0, 0]` at a 400 Hz sampling rate
the scan visits exactly lag 1, finds correlation 1 there, and the guarded
return yields `400 / 1 = 400`. -/
theorem autoCorrelate_argmax_witness : autoCorrelate [1, 1, 0, 0] 400 = 400 := by
  have hmin : minPeriodOf 400 = 1 := by
    rw [minPeriodOf]
    norm_num
  have hmax : maxPeriodOf 400 = 5 := by
    rw [maxPeriodOf, Int.floor_eq_iff]
    norm_num
  have hbound : scanBound [1, 1, 0, 0] 400 = 2 := by
    rw [scanBound, hmax]
    rfl
  have hoffsets : offsetList [1, 1, 0, 0] 400 = [1] := by
    rw [offsetList, hbound, hmin]
    rfl
  have hb0 : bufAt [1, 1, 0, 0] 0 = 1 := by
    rw [bufAt, if_pos]
    · rfl
    · constructor
      · norm_num
      · norm_num
  have hb1 : bufAt [1, 1, 0, 0] 1 = 1 := by
    rw [bufAt, if_pos]
    · rfl
    · constructor
      · norm_num
      · norm_num
  have hrange : ((maxSamples [1, 1, 0, 0] : ℤ) - 1).toNat = 1 := rfl
  have hsum : corrSum [1, 1, 0, 0] 1 = 1 := by
    rw [corrSum, hrange, Finset.sum_range_one]
    norm_num [hb0, hb1]
  have he1 : corrE1 [1, 1, 0, 0] 1 = 1 := by
    rw [corrE1, hrange, Finset.sum_range_one]
    norm_num [hb0]
  have he2 : corrE2 [1, 1, 0, 0] 1 = 1 := by
    rw [corrE2, hrange, Finset.sum_range_one]
    norm_num [hb1]
  have hnorm : corrNorm [1, 1, 0, 0] 1 = 1 := by
    rw [corrNorm, he1, he2, mul_one, Real.sqrt_one]
  have hcorr : corrAt [1, 1, 0, 0] 1 = 1 := by
    rw [corrAt, hsum, hnorm, div_one]
  have hscan : scanResult [1, 1, 0, 0] 400 = (1, 1) := by
    rw [scanResult, hoffsets, List.foldl_cons, List.foldl_nil, scanStep,
      if_pos (by rw [hnorm]; norm_num),
      if_pos (by show ((-1 : ℤ), (-1 : ℝ)).2 < corrAt [1, 1, 0, 0] 1
                 rw [hcorr]; norm_num),
      hcorr]
  have hret := (autoCorrelate_argmax [1, 1, 0, 0] 400).2.2.2.2.1
  have hcond : 0.2 < (scanResult [1, 1, 0, 0] 400).2 ∧
      0 < (scanResult [1, 1, 0, 0] 400).1 := by
    rw [hscan]
    constructor
    · norm_num
    · norm_num
  rw [hret hcond, hscan]
  norm_num

/-- Rounding is monotone (Mathlib's `round` is `fun x => ⌊x + 1 / 2⌋`). -/
theorem roundMonoLe {x y : ℝ} (h : x ≤ y) : round x ≤ round y := by
  rw [round_eq, round_eq]
  exact Int.floor_le_floor (by linarith)

/-- The truncating remainder of an integer by 12 exceeds -12. -/
theorem tmodTwelveLower (r : ℤ) : -12 < r.tmod 12 := by
  cases r with
  | ofNat m =>
    exact lt_of_lt_of_le (by norm_num) (Int.tmod_nonneg _ (Int.ofNat_nonneg m))
  | negSucc m =>
    have hred : (Int.negSucc m).tmod 12 = -(((m + 1) % 12 : ℕ) : ℤ) := rfl
    have hlt : (m + 1) % 12 < 12 := Nat.mod_lt _ (by norm_num)
    omega

/-- The double-remainder dance of `getNoteFromFrequency`, written with the
JavaScript truncating `%`, equals the same dance with the Euclidean `%`. -/
theorem jsModTwelve (r : ℤ) :
    ((r.tmod 12) + 12).tmod 12 = (r % 12 + 12) % 12 := by
  have hdef : r.tmod 12 = r - 12 * r.tdiv 12 := Int.tmod_def r 12
  have hlow : -12 < r.tmod 12 := tmodTwelveLower r
  have hhigh : r.tmod 12 < 12 := Int.tmod_lt_of_pos r (by norm_num)
  rw [Int.tmod_eq_emod (by omega) (by norm_num)]
  omega

/-- C7: locked-mode deviation is 0 when the measured frequency equals the
target, and is monotone in the measured frequency for a fixed target. -/
theorem lockedCents_target_zero_and_monotone :
    (∀ target : ℝ, 0 < target → lockedCents target target = 0) ∧
    (∀ target f1 f2 : ℝ, 0 < target → 0 < f1 → f1 ≤ f2 →
      lockedCents f1 target ≤ lockedCents f2 target) := by
  constructor
  · intro t ht
    rw [lockedCents, div_self (ne_of_gt ht), Real.logb_one, mul_zero, round_zero]
  · intro t f1 f2 ht h1 h12
    apply roundMonoLe
    have hq : f1 / t ≤ f2 / t := by gcongr
    have hlog := Real.logb_le_logb_of_le (by norm_num : (1:ℝ) < 2)
      (div_pos h1 ht) hq
    linarith

/-- Witness for C7 at target 110 Hz and frequencies 110 and 220 Hz. -/
theorem lockedCents_target_zero_and_monotone_witness :
    lockedCents 110 110 = 0 ∧ lockedCents 110 110 ≤ lockedCents 220 110 :=
  ⟨lockedCents_target_zero_and_monotone.1 110 (by norm_num),
   lockedCents_target_zero_and_monotone.2 110 110 220 (by norm_num)
     (by norm_num) (by norm_num)⟩

/-- C3: free-mode note mapping follows the MIDI formulas of
`getNoteFromFrequency` (midi from `12 * log2(f / 440) + 69`, cents from the
rounded distance to the nearest MIDI note, note index from the
double-remainder into the chromatic table, octave from
`floor(roundedMidi / 12) - 1`); 440 Hz maps to note "A", octave 4, cents 0;
and the cents always lie in [-50, 50]. -/
theorem getNote_formulas_cents_bound_A440 :
    (∀ f : ℝ, midiOf f = 12 * Real.logb 2 (f / 440) + 69) ∧
    (∀ f : ℝ,
      (getNoteFromFrequency f).midi = round (midiOf f) ∧
      (getNoteFromFrequency f).cents
          = round ((midiOf f - (round (midiOf f) : ℝ)) * 100) ∧
      (getNoteFromFrequency f).note
          = NOTE_NAMES.getD (((round (midiOf f) % 12 + 12) % 12).toNat)
              UNKNOWN_NOTE ∧
      (getNoteFromFrequency f).octave
          = ⌊((round (midiOf f) : ℤ) : ℝ) / 12⌋ - 1 ∧
      -50 ≤ (getNoteFromFrequency f).cents ∧
      (getNoteFromFrequency f).cents ≤ 50) ∧
    (getNoteFromFrequency 440).note = "A" ∧
    (getNoteFromFrequency 440).octave = 4 ∧
    (getNoteFromFrequency 440).cents = 0 := by
  have hmid : midiOf 440 = 69 := by
    rw [midiOf, A4_FREQ, A4_MIDI, div_self (by norm_num : (440:ℝ) ≠ 0),
      Real.logb_one]
    norm_num
  have hbound : ∀ f : ℝ, -50 ≤ (getNoteFromFrequency f).cents ∧
      (getNoteFromFrequency f).cents ≤ 50 := by
    intro f
    have habs : |midiOf f - (round (midiOf f) : ℝ)| ≤ 1 / 2 :=
      abs_sub_round (midiOf f)
    have hub : (midiOf f - (round (midiOf f) : ℝ)) * 100 ≤ ((50 : ℤ) : ℝ) := by
      have := (abs_le.mp habs).2
      push_cast
      linarith
    have hlb : ((-50 : ℤ) : ℝ) ≤ (midiOf f - (round (midiOf f) : ℝ)) * 100 := by
      have := (abs_le.mp habs).1
      push_cast
      linarith
    have hcents : (getNoteFromFrequency f).cents
        = round ((midiOf f - (round (midiOf f) : ℝ)) * 100) := rfl
    constructor
    · rw [hcents]
      have := roundMonoLe hlb
      rwa [round_intCast] at this
    · rw [hcents]
      have := roundMonoLe hub
      rwa [round_intCast] at this
  have h69 : round (midiOf 440) = (69 : ℤ) := by
    rw [hmid, show ((69:ℝ)) = (((69:ℤ)):ℝ) by norm_num, round_intCast]
  refine ⟨fun f => rfl, fun f => ⟨rfl, rfl, ?_, rfl, hbound f⟩, ?_, ?_, ?_⟩
  · show NOTE_NAMES.getD ((((round (midiOf f)).tmod 12 + 12).tmod 12).toNat)
        UNKNOWN_NOTE = _
    rw [jsModTwelve]
  · show NOTE_NAMES.getD ((((round (midiOf 440)).tmod 12 + 12).tmod 12).toNat)
        UNKNOWN_NOTE = "A"
    rw [h69]
    rfl
  · show ⌊((round (midiOf 440) : ℤ) : ℝ) / 12⌋ - 1 = 4
    rw [h69]
    have h5 : ⌊((69 : ℤ) : ℝ) / 12⌋ = 5 := by
      rw [Int.floor_eq_iff]
      push_cast
      norm_num
    rw [h5]
    norm_num
  · show round ((midiOf 440 - (round (midiOf 440) : ℝ)) * 100) = 0
    rw [h69, hmid]
    norm_num

/-- Rounding a real expression equal to an integer yields that integer. -/
theorem roundRealInt (z : ℤ) (x : ℝ) (h : x = (z : ℝ)) : round x = z := by
  rw [h, round_intCast]

/-- The MIDI value of a frequency written as 440 Hz scaled by a power of 2. -/
theorem midiOfScale (y : ℝ) : midiOf (440 * (2:ℝ) ^ y) = 12 * y + 69 := by
  rw [midiOf, A4_FREQ, A4_MIDI,
    mul_div_cancel_left₀ _ (by norm_num : (440:ℝ) ≠ 0),
    Real.logb_rpow (by norm_num) (by norm_num)]

/-- Locked-mode deviation of a frequency written as the target scaled by a
power of 2. -/
theorem lockedCentsScale (t y : ℝ) (ht : t ≠ 0) :
    lockedCents (t * (2:ℝ) ^ y) t = round (1200 * y) := by
  rw [lockedCents, mul_div_cancel_left₀ _ ht,
    Real.logb_rpow (by norm_num) (by norm_num)]

/-- The frequency of the locked A string (index 1) is 110 Hz. -/
theorem stringOneFreq : (stringAt 1).freq = 110 := by
  show (110.00 : ℝ) = 110
  norm_num

/-- C5: the displayed in-tune flag holds exactly when the unclamped cents
deviation is at most 5 in absolute value, for every frequency in both locked
and free mode; concretely, a deviation of exactly +5 (locked), +6 (locked),
-5 (free) or -6 (free) cents is in tune, out of tune, in tune and out of
tune respectively. -/
theorem inTune_iff_within_five_cents :
    (∀ (f : ℝ) (lock : Option (Fin 6)),
      (updateDisplay f lock).noteInTune = true ↔
        |displayCents f lock| ≤ IN_TUNE_CENTS) ∧
    displayCents (110 * (2:ℝ) ^ ((5:ℝ)/1200)) (some 1) = 5 ∧
    (updateDisplay (110 * (2:ℝ) ^ ((5:ℝ)/1200)) (some 1)).noteInTune = true ∧
    displayCents (110 * (2:ℝ) ^ ((6:ℝ)/1200)) (some 1) = 6 ∧
    (updateDisplay (110 * (2:ℝ) ^ ((6:ℝ)/1200)) (some 1)).noteInTune = false ∧
    displayCents (440 * (2:ℝ) ^ (-(5:ℝ)/1200)) none = -5 ∧
    (updateDisplay (440 * (2:ℝ) ^ (-(5:ℝ)/1200)) none).noteInTune = true ∧
    displayCents (440 * (2:ℝ) ^ (-(6:ℝ)/1200)) none = -6 ∧
    (updateDisplay (440 * (2:ℝ) ^ (-(6:ℝ)/1200)) none).noteInTune = false := by
  have hiff : ∀ (f : ℝ) (lock : Option (Fin 6)),
      (updateDisplay f lock).noteInTune = true ↔
        |displayCents f lock| ≤ IN_TUNE_CENTS := by
    intro f lock
    show decide (|displayCents f lock| ≤ IN_TUNE_CENTS) = true ↔ _
    exact decide_eq_true_iff
  have hlocked : ∀ y : ℝ,
      displayCents (110 * (2:ℝ) ^ y) (some 1) = round (1200 * y) := by
    intro y
    show lockedCents (110 * (2:ℝ) ^ y) (stringAt 1).freq = _
    rw [stringOneFreq, lockedCentsScale _ _ (by norm_num : (110:ℝ) ≠ 0)]
  have hfree : ∀ y : ℝ, round (12 * y + 69) = 69 →
      displayCents (440 * (2:ℝ) ^ y) none
        = round ((12 * y + 69 - ((69:ℤ):ℝ)) * 100) := by
    intro y hr
    show round ((midiOf (440 * (2:ℝ) ^ y)
        - (round (midiOf (440 * (2:ℝ) ^ y)) : ℝ)) * 100) = _
    rw [midiOfScale, hr]
  have hr5 : round (12 * (-(5:ℝ)/1200) + 69) = 69 := by
    rw [round_eq, Int.floor_eq_iff]
    push_cast
    norm_num
  have hr6 : round (12 * (-(6:ℝ)/1200) + 69) = 69 := by
    rw [round_eq, Int.floor_eq_iff]
    push_cast
    norm_num
  have h5 : displayCents (110 * (2:ℝ) ^ ((5:ℝ)/1200)) (some 1) = 5 := by
    rw [hlocked]
    exact roundRealInt 5 _ (by norm_num)
  have h6 : displayCents (110 * (2:ℝ) ^ ((6:ℝ)/1200)) (some 1) = 6 := by
    rw [hlocked]
    exact roundRealInt 6 _ (by norm_num)
  have hm5 : displayCents (440 * (2:ℝ) ^ (-(5:ℝ)/1200)) none = -5 := by
    rw [hfree _ hr5]
    exact roundRealInt (-5) _ (by push_cast; ring_nf)
  have hm6 : displayCents (440 * (2:ℝ) ^ (-(6:ℝ)/1200)) none = -6 := by
    rw [hfree _ hr6]
    exact roundRealInt (-6) _ (by push_cast; ring_nf)
  refine ⟨hiff, h5, ?_, h6, ?_, hm5, ?_, hm6, ?_⟩
  · rw [hiff, h5]
    decide
  · rw [Bool.eq_false_iff]
    intro hcon
    have := (hiff _ _).mp hcon
    rw [h6] at this
    exact absurd this (by decide)
  · rw [hiff, hm5]
    decide
  · rw [Bool.eq_false_iff]
    intro hcon
    have := (hiff _ _).mp hcon
    rw [hm6] at this
    exact absurd this (by decide)

/-- C9: stopping a listening session resets the smoothed-frequency state to
uninitialized and resets the display, but leaves the locked-string index
unchanged, so the lock selected before stop is still the target after the
next start. -/
theorem stopListening_resets_state_keeps_lock (s : SessionState) :
    (stopListening s).lockedStringIndex = s.lockedStringIndex ∧
    (stopListening s).smoothedFrequency = none ∧
    (stopListening s).display = resetDisplayState ∧
    (stopListening s).isListening = false ∧
    (startListening (stopListening s)).lockedStringIndex
      = s.lockedStringIndex :=
  ⟨rfl, rfl, rfl, rfl, rfl⟩

/-- C6: on a tick whose window is all-zero or has RMS volume below the 0.01
threshold, the correlation scan is never invoked (the tick's outcome is the
same for every estimator, which never gets called), the smoother state is
reset to uninitialized, and the no-signal result is emitted with the
in-tune, meter-segment and string-button indicators all cleared. -/
theorem silent_tick_resets_and_skips_scan (est : List ℝ → ℝ → ℝ)
    (buffer : List ℝ) (R : ℝ) (s : SessionState)
    (hl : s.isListening = true)
    (hq : (∀ x ∈ buffer, x = 0) ∨ rmsOf buffer < MIN_VOLUME) :
    detectPitchWith est buffer R s
      = ({ s with smoothedFrequency := none,
                  display := clearSignalIndicators s.display },
         TickResult.noSignal) := by
  have hrms : ¬ MIN_VOLUME < rmsOf buffer := by
    rcases hq with hz | hlt
    · have hzero : rmsOf buffer = 0 := by
        rw [rmsOf]
        have hsum : (buffer.map (fun x => x * x)).sum = 0 := by
          apply List.sum_eq_zero
          intro y hy
          rw [List.mem_map] at hy
          obtain ⟨x, hx, rfl⟩ := hy
          rw [hz x hx]
          ring
        rw [hsum, zero_div, Real.sqrt_zero]
      rw [hzero, MIN_VOLUME]
      norm_num
    · exact not_lt.mpr (le_of_lt hlt)
  rw [detectPitchWith, if_pos hl]
  simp only [if_neg hrms]

/-- Witness for C6 on the all-zero window `[0, 0]` from a listening state
with an initialized smoother. -/
theorem silent_tick_resets_and_skips_scan_witness :
    detectPitchWith autoCorrelate [0, 0] 44100
        ⟨true, none, some 100, resetDisplayState⟩
      = (⟨true, none, none, clearSignalIndicators resetDisplayState⟩,
         TickResult.noSignal) :=
  silent_tick_resets_and_skips_scan autoCorrelate [0, 0] 44100
    ⟨true, none, some 100, resetDisplayState⟩ rfl
    (Or.inl (by
      intro x hx
      rcases List.mem_cons.mp hx with h | h
      · exact h
      · simpa using h))

/-- The RMS volume of the window `[1, 1]` is 1, well above the gate. -/
theorem rmsOfPairOnes : rmsOf [1, 1] = 1 := by
  have harg : (([1, 1] : List ℝ).map (fun x => x * x)).sum
      / ((([1, 1] : List ℝ).length : ℕ) : ℝ) = 1 := by
    norm_num
  rw [rmsOf, harg, Real.sqrt_one]

/-- On the two-sample window `[1, 1]` at 44100 Hz the lag range is empty
(`minPeriod` is 110 but `MAX_SAMPLES` is 1), so the estimator returns -1
even though the window is loud. -/
theorem autoCorrelatePairOnes : autoCorrelate [1, 1] 44100 = -1 := by
  have hmin : (110 : ℤ) ≤ minPeriodOf 44100 := by
    rw [minPeriodOf]
    exact Int.le_floor.mpr (by norm_num)
  have hempty : offsetList [1, 1] 44100 = [] := by
    apply offsetList_eq_nil
    have h1 : scanBound [1, 1] 44100 ≤ ((maxSamples [1, 1] : ℕ) : ℤ) :=
      min_le_left _ _
    have h2 : ((maxSamples [1, 1] : ℕ) : ℤ) = 1 := rfl
    omega
  have hres := scanResult_of_nil [1, 1] 44100 hempty
  show (if 0.2 < (scanResult [1, 1] 44100).2 ∧ 0 < (scanResult [1, 1] 44100).1
      then (44100 : ℝ) / ((scanResult [1, 1] 44100).1 : ℝ) else -1) = -1
  rw [hres, if_neg]
  rintro ⟨h, -⟩
  norm_num at h

/-- Counterexample to C1: on the window `[1, 1]` at 44100 Hz the RMS volume
exceeds the gate and the estimator reports -1, yet the tick does not behave
like a silent tick: the smoothed-frequency state is left at its pre-dropout
value `some 100` instead of being reset to uninitialized, and no no-signal
result is emitted. -/
theorem dropout_tick_counterexample :
    MIN_VOLUME < rmsOf [1, 1] ∧
    autoCorrelate [1, 1] 44100 = -1 ∧
    (detectPitch [1, 1] 44100
        ⟨true, none, some 100, resetDisplayState⟩).1.smoothedFrequency
      = some 100 ∧
    (detectPitch [1, 1] 44100
        ⟨true, none, some 100, resetDisplayState⟩).2
      ≠ TickResult.noSignal := by
  have hrms : MIN_VOLUME < rmsOf [1, 1] := by
    rw [rmsOfPairOnes, MIN_VOLUME]
    norm_num
  have hstep : detectPitch [1, 1] 44100 ⟨true, none, some 100, resetDisplayState⟩
      = (⟨true, none, some 100, resetDisplayState⟩, TickResult.skipped) := by
    rw [detectPitch, detectPitchWith, if_pos rfl]
    simp only [if_pos hrms,
      if_neg (show ¬ (autoCorrelate [1, 1] 44100 ≠ -1) from
        fun hc => hc autoCorrelatePairOnes)]
  refine ⟨hrms, autoCorrelatePairOnes, ?_, ?_⟩
  · rw [hstep]
  · rw [hstep]
    intro h
    exact TickResult.noConfusion h

/-- Amended C1: on any tick where the RMS volume exceeds the gate but the
pitch estimator reports -1, the session leaves its entire state unchanged —
the smoothed frequency is retained rather than reset and the display is not
touched — and no result is emitted (the tick is skipped); consequently the
next valid estimate is blended against the retained pre-dropout value by the
EMA update instead of being taken verbatim. -/
theorem dropout_tick_skips_unchanged (buffer : List ℝ) (R : ℝ)
    (s : SessionState) (hl : s.isListening = true)
    (hrms : MIN_VOLUME < rmsOf buffer)
    (hest : autoCorrelate buffer R = -1) :
    detectPitch buffer R s = (s, TickResult.skipped) := by
  rw [detectPitch, detectPitchWith, if_pos hl]
  simp only [if_pos hrms,
    if_neg (show ¬ (autoCorrelate buffer R ≠ -1) from fun hc => hc hest)]

/-- Witness for the amended C1 on the window `[1, 1]` at 44100 Hz. -/
theorem dropout_tick_skips_unchanged_witness :
    detectPitch [1, 1] 44100 ⟨true, none, some 100, resetDisplayState⟩
      = (⟨true, none, some 100, resetDisplayState⟩, TickResult.skipped) :=
  dropout_tick_skips_unchanged [1, 1] 44100
    ⟨true, none, some 100, resetDisplayState⟩ rfl
    (by rw [rmsOfPairOnes, MIN_VOLUME]; norm_num)
    autoCorrelatePairOnes

end SimpleTune
